import Mathlib

/-!
# Verification of the openalternative front-end logic

A shallow embedding of the parts of the `openalternative` repository that the
specification makes claims about:

* the debounced search box (`src/app/routes/_index/SearchBox.tsx`),
* the alternative detail page (`src/app/(web)/alternatives/[slug]/page.tsx`):
  category ranking, top-5 slice, empty-state rendering, not-found handling and
  metadata title,
* the tool badges component (`ToolBadges`),
* the breadcrumbs component
  (`src/apps/web/src/components/web/ui/breadcrumbs.tsx`).

Time is modelled in milliseconds (natural numbers) for the search box and in
whole days (integers) for the badge component.  Strings are Lean `String`s.
-/

/-! ## Search box (src/app/routes/_index/SearchBox.tsx)

The component keeps the text in local state (`searchQuery`), feeds it through
`useDebounce(searchQuery, 250)` and calls `refine(debouncedSearchTerm)` from an
effect whenever the debounced value changes.  The `useDebounce` hook arms a
timer of `delay` milliseconds on every change of the input state and cancels
the previously armed timer, so a state change becomes the debounced value
(and is submitted by `refine`) exactly when no further change happens before
its timer expires.

We embed this as a function over the event history of the `searchQuery`
state: a list of `(time, value)` pairs, ordered by time.  `debounceFires`
returns the surviving timer expiries of those changes, each as a
`(time, value)` pair: the change at time `t` expires at `t + delay` unless
the next change happens strictly before that deadline, in which case its
timer is cancelled.  The expiries over-approximate the `refine` calls: the
effect re-runs only when the debounced value actually changes, so the real
calls are the expiry stream gated by value changes (`refineCalls` below);
properties of the form "no call before/besides ..." proved over the expiry
stream therefore hold a fortiori of the real calls. -/

/-- The debounce delay used by `SearchBox`: `useDebounce(searchQuery, 250)`. -/
def debounceDelay : Nat := 250

/-- The surviving debounce timer expiries produced by a history of
`searchQuery` changes, under the timer semantics of `useDebounce`: each
change arms a timer of `delay` ms and cancels the pending one, so change
`(t, v)` becomes the debounced value at `t + delay` iff the next change is
not strictly earlier than `t + delay`.  A superset of the `refine` calls;
see `refineCalls` for the value-change gating of the effect. -/
def debounceFires (delay : Nat) : List (Nat × String) → List (Nat × String)
  | [] => []
  | [(t, v)] => [(t + delay, v)]
  | (t, v) :: (t2, v2) :: rest =>
    if t + delay ≤ t2 then (t + delay, v) :: debounceFires delay ((t2, v2) :: rest)
    else debounceFires delay ((t2, v2) :: rest)

/-- The form's reset handler: `onReset={() => setSearchQuery("")}`. -/
def resetSearchQuery (_prev : String) : String := ""

theorem debounceFires_nil (delay : Nat) : debounceFires delay [] = [] := rfl

theorem debounceFires_singleton (delay t : Nat) (v : String) :
    debounceFires delay [(t, v)] = [(t + delay, v)] := rfl

/-- Every `refine` call comes from some input change `e`, fires exactly
`delay` ms after it, and no other input change falls strictly inside the
quiet window `(e.1, e.1 + delay)`. -/
theorem debounceFires_quiet (delay : Nat) (events : List (Nat × String))
    (hmono : events.Pairwise (fun e e2 => e.1 < e2.1)) :
    ∀ p ∈ debounceFires delay events,
      ∃ e ∈ events, p = (e.1 + delay, e.2) ∧
        ∀ e2 ∈ events, e2.1 ≤ e.1 ∨ e.1 + delay ≤ e2.1 := by
  induction events with
  | nil => intro p hp; simp [debounceFires] at hp
  | cons e rest ih =>
    match rest with
    | [] =>
      intro p hp
      simp only [debounceFires, List.mem_singleton] at hp
      refine ⟨e, List.mem_cons_self _ _, by simpa using hp, ?_⟩
      intro e2 he2
      rcases List.mem_singleton.mp he2 with rfl
      exact Or.inl le_rfl
    | e2 :: rest2 =>
      have hlt : ∀ x ∈ e2 :: rest2, e.1 < x.1 := fun x hx =>
        (List.pairwise_cons.mp hmono).1 x hx
      have htail : (e2 :: rest2).Pairwise (fun a b => a.1 < b.1) :=
        (List.pairwise_cons.mp hmono).2
      intro p hp
      by_cases hfire : e.1 + delay ≤ e2.1
      · rw [show debounceFires delay (e :: e2 :: rest2) =
            (e.1 + delay, e.2) :: debounceFires delay (e2 :: rest2) by
              simp [debounceFires, hfire]] at hp
        rcases List.mem_cons.mp hp with rfl | hp2
        · refine ⟨e, List.mem_cons_self _ _, rfl, ?_⟩
          intro x hx
          rcases List.mem_cons.mp hx with rfl | hx2
          · exact Or.inl le_rfl
          · rcases List.mem_cons.mp hx2 with rfl | hx3
            · exact Or.inr hfire
            · refine Or.inr (le_trans hfire (le_of_lt ?_))
              exact (List.pairwise_cons.mp htail).1 x hx3
        · rcases ih htail p hp2 with ⟨f, hf, hpf, hquiet⟩
          refine ⟨f, List.mem_cons.mpr (Or.inr hf), hpf, ?_⟩
          intro x hx
          rcases List.mem_cons.mp hx with rfl | hx2
          · exact Or.inl (le_of_lt (hlt f hf))
          · exact hquiet x hx2
      · rw [show debounceFires delay (e :: e2 :: rest2) =
            debounceFires delay (e2 :: rest2) by simp [debounceFires, hfire]] at hp
        rcases ih htail p hp with ⟨f, hf, hpf, hquiet⟩
        refine ⟨f, List.mem_cons.mpr (Or.inr hf), hpf, ?_⟩
        intro x hx
        rcases List.mem_cons.mp hx with rfl | hx2
        · exact Or.inl (le_of_lt (hlt f hf))
        · exact hquiet x hx2

/-- Claim C1: for every sequence of keystrokes into the search box (modelled
as the timestamped history of `searchQuery` changes, with strictly increasing
times), no query is submitted to the search index — `refine` is not called
with the new text — until 250ms have elapsed with no further input change:
every timer expiry (a superset of the `refine` calls) happens exactly 250ms
after some input change, and no other input change lies strictly inside that
250ms window. -/
theorem searchBox_no_refine_before_quiet_period (events : List (Nat × String))
    (hmono : events.Pairwise (fun e e2 => e.1 < e2.1)) :
    ∀ p ∈ debounceFires debounceDelay events,
      ∃ e ∈ events, p = (e.1 + debounceDelay, e.2) ∧
        ∀ e2 ∈ events, e2.1 ≤ e.1 ∨ e.1 + debounceDelay ≤ e2.1 :=
  debounceFires_quiet debounceDelay events hmono

/-- Witness for C1 at a concrete input history. -/
theorem searchBox_no_refine_before_quiet_period_witness :
    ((550 : Nat), "ab") ∈ debounceFires debounceDelay [(0, "a"), (300, "ab")] ∧
    (∃ e ∈ [((0 : Nat), "a"), (300, "ab")], ((550 : Nat), "ab") = (e.1 + debounceDelay, e.2) ∧
      ∀ e2 ∈ [((0 : Nat), "a"), (300, "ab")], e2.1 ≤ e.1 ∨ e.1 + debounceDelay ≤ e2.1) := by
  constructor
  · simp [debounceFires, debounceDelay]
  · exact searchBox_no_refine_before_quiet_period [(0, "a"), (300, "ab")]
      (by simp [debounceDelay]) (550, "ab") (by simp [debounceFires, debounceDelay])

/-- If the next change arrives strictly within the delay, the pending timer is
cancelled, so the submitted calls are those of the remaining history. -/
theorem debounceFires_cons_cancel (delay : Nat) (e e2 : Nat × String)
    (rest : List (Nat × String)) (h : e2.1 < e.1 + delay) :
    debounceFires delay (e :: e2 :: rest) = debounceFires delay (e2 :: rest) := by
  simp [debounceFires, Nat.not_le.mpr h]

/-- Claim C7: for every nonempty sequence of text values typed with less than
250ms between consecutive changes, only the final value is ever submitted to
the search index; none of the intermediate values is submitted. -/
theorem searchBox_rapid_typing_submits_only_final (events : List (Nat × String))
    (hne : events ≠ [])
    (hfast : events.Chain' (fun e e2 => e2.1 < e.1 + debounceDelay)) :
    debounceFires debounceDelay events =
      [((events.getLast hne).1 + debounceDelay, (events.getLast hne).2)] := by
  induction events with
  | nil => exact absurd rfl hne
  | cons e rest ih =>
    match rest with
    | [] => simp [debounceFires]
    | e2 :: rest2 =>
      have hgap : e2.1 < e.1 + debounceDelay := (List.chain'_cons.mp hfast).1
      have htail : (e2 :: rest2).Chain' (fun a b => b.1 < a.1 + debounceDelay) :=
        (List.chain'_cons.mp hfast).2
      rw [debounceFires_cons_cancel debounceDelay e e2 rest2 hgap,
        ih (List.cons_ne_nil _ _) htail, List.getLast_cons (List.cons_ne_nil _ _)]

/-- Witness for C7: three keystrokes 100ms apart yield a single `refine` with
the final text. -/
theorem searchBox_rapid_typing_submits_only_final_witness :
    debounceFires debounceDelay [(0, "a"), (100, "ab"), (200, "abc")] =
      [(([((0 : Nat), "a"), (100, "ab"), (200, "abc")].getLast (by simp)).1 + debounceDelay,
        ([((0 : Nat), "a"), (100, "ab"), (200, "abc")].getLast (by simp)).2)] :=
  searchBox_rapid_typing_submits_only_final [(0, "a"), (100, "ab"), (200, "abc")]
    (by simp) (by simp [debounceDelay])

/-- After a debounced-value timer expiry, the running debounced value is the
value of that expiry; `useEffect(() => refine(debouncedSearchTerm), [debouncedSearchTerm, refine])`
re-runs — and calls `refine` — only when the debounced value actually
changes: `useDebounce` installs the new value with a state set, and a set to
an identical value bails out without a re-render, leaving the effect
dependencies unchanged.  `dedupFires` filters a stream of timer expiries
down to those that change the running debounced value, starting from
`current`. -/
def dedupFires (current : String) : List (Nat × String) → List (Nat × String)
  | [] => []
  | (t, v) :: rest =>
    if v == current then dedupFires current rest
    else (t, v) :: dedupFires v rest

/-- The `refine` calls triggered by a history of `searchQuery` changes after
mount (the effect also runs once on mount, with the initial unchanged
query): the debounce timer expiries, gated on an actual change of the
debounced value, which starts at the initial query text. -/
def refineCalls (delay : Nat) (initial : String) (events : List (Nat × String)) :
    List (Nat × String) :=
  dedupFires initial (debounceFires delay events)

/-- The debounced value in effect after a stream of timer expiries. -/
def finalActiveQuery (current : String) : List (Nat × String) → String
  | [] => current
  | (_, v) :: rest => finalActiveQuery v rest

theorem finalActiveQuery_append_single (l : List (Nat × String)) :
    ∀ (current : String) (x : Nat × String), finalActiveQuery current (l ++ [x]) = x.2 := by
  induction l with
  | nil => intro current x; rfl
  | cons y l ih => intro current x; exact ih y.2 x

/-- Gating only removes calls. -/
theorem dedupFires_mem (p : Nat × String) :
    ∀ (l : List (Nat × String)) (current : String),
      p ∈ dedupFires current l → p ∈ l := by
  intro l
  induction l with
  | nil => intro current h; simp [dedupFires] at h
  | cons y l ih =>
    rcases y with ⟨ty, vy⟩
    intro current h
    simp only [dedupFires] at h
    by_cases hv : vy == current
    · rw [if_pos hv] at h
      exact List.mem_cons.mpr (Or.inr (ih current h))
    · rw [if_neg hv] at h
      rcases List.mem_cons.mp h with rfl | h2
      · exact List.mem_cons_self _ _
      · exact List.mem_cons.mpr (Or.inr (ih vy h2))

/-- Gating a stream extended by one expiry: the extra expiry survives iff its
value differs from the debounced value in effect after the earlier ones. -/
theorem dedupFires_append_single (l : List (Nat × String)) :
    ∀ (current : String) (x : Nat × String),
      dedupFires current (l ++ [x]) =
        dedupFires current l ++
          (if x.2 == finalActiveQuery current l then [] else [x]) := by
  induction l with
  | nil =>
    intro current x
    rcases x with ⟨tx, vx⟩
    by_cases hv : vx == current <;> simp [dedupFires, finalActiveQuery, hv]
  | cons y l ih =>
    rcases y with ⟨ty, vy⟩
    intro current x
    rw [List.cons_append]
    simp only [dedupFires, finalActiveQuery]
    by_cases hv : vy == current
    · rw [if_pos hv, if_pos hv, ih current x]
      have : vy = current := by simpa using hv
      rw [this]
    · rw [if_neg hv, if_neg hv, ih vy x, List.cons_append]

/-- Appending a final input change after every earlier change produces the
expiries of the earlier changes — each no later than the final change — then
the final change's own expiry. -/
theorem debounceFires_append_last (delay : Nat) (t : Nat) (v : String) :
    ∀ events : List (Nat × String), (∀ e ∈ events, e.1 < t) →
      ∃ pre, debounceFires delay (events ++ [(t, v)]) = pre ++ [(t + delay, v)] ∧
        ∀ p ∈ pre, p.1 ≤ t := by
  intro events
  induction events with
  | nil => intro hb; exact ⟨[], rfl, by simp⟩
  | cons e rest ih =>
    intro hb
    have hbrest : ∀ x ∈ rest, x.1 < t := fun x hx =>
      hb x (List.mem_cons.mpr (Or.inr hx))
    match rest with
    | [] =>
      by_cases h : e.1 + delay ≤ t
      · refine ⟨[(e.1 + delay, e.2)], by simp [debounceFires, h], ?_⟩
        intro p hp
        rcases List.mem_singleton.mp hp with rfl
        exact h
      · exact ⟨[], by simp [debounceFires, h], by simp⟩
    | e2 :: rest2 =>
      obtain ⟨pre, hfires, hbound⟩ := ih hbrest
      rw [List.cons_append] at hfires
      by_cases h : e.1 + delay ≤ e2.1
      · refine ⟨(e.1 + delay, e.2) :: pre, ?_, ?_⟩
        · rw [List.cons_append, List.cons_append,
            show debounceFires delay (e :: e2 :: (rest2 ++ [(t, v)])) =
              (e.1 + delay, e.2) :: debounceFires delay (e2 :: (rest2 ++ [(t, v)])) by
                simp [debounceFires, h],
            hfires, List.cons_append]
        · intro p hp
          rcases List.mem_cons.mp hp with rfl | hp2
          · exact le_of_lt (lt_of_le_of_lt h (hbrest e2 (List.mem_cons_self e2 rest2)))
          · exact hbound p hp2
      · refine ⟨pre, ?_, hbound⟩
        rw [List.cons_append, List.cons_append,
          show debounceFires delay (e :: e2 :: (rest2 ++ [(t, v)])) =
            debounceFires delay (e2 :: (rest2 ++ [(t, v)])) by simp [debounceFires, h],
          hfires]

/-- Counterexample to claim C5 as stated: start with the empty query, type
"a" at 100ms, trigger the reset action at 200ms.  The reset clears the text
state, the "a" timer is cancelled, and the reset's own timer expires at
450ms with the value "" — equal to the debounced value still in effect — so
the effect never re-runs: no query at all, in particular not the empty
string, is subsequently submitted to the index. -/
theorem searchBox_reset_no_refine_counterexample :
    resetSearchQuery "a" = "" ∧
    refineCalls debounceDelay "" [(100, "a"), (200, resetSearchQuery "a")] = [] :=
  ⟨rfl, rfl⟩

/-- Claim C5 (amended): for every prior search-box text state and input
history, the reset action clears the local text state to the empty string,
and the empty query then wins: the debounced (active) query value ends as
the empty string, every `refine` call later than the reset carries the empty
string, and either `refine ""` is the final call, fired 250ms after the
reset, or no `refine` at all happens after the reset — the latter exactly
when the debounced value in effect at the reset timer's expiry is already
the empty string (the effect does not re-run on an unchanged value). -/
theorem searchBox_reset_clears_and_empty_query_wins
    (s initial : String) (prior : List (Nat × String)) (t : Nat)
    (hprior : ∀ e ∈ prior, e.1 < t) :
    resetSearchQuery s = "" ∧
    finalActiveQuery initial
      (debounceFires debounceDelay (prior ++ [(t, resetSearchQuery s)])) = "" ∧
    (∀ p ∈ refineCalls debounceDelay initial (prior ++ [(t, resetSearchQuery s)]),
      t < p.1 → p.2 = "") ∧
    ((refineCalls debounceDelay initial (prior ++ [(t, resetSearchQuery s)])).getLast? =
        some (t + debounceDelay, "") ∨
      ∀ p ∈ refineCalls debounceDelay initial (prior ++ [(t, resetSearchQuery s)]),
        p.1 ≤ t) := by
  obtain ⟨pre, hfires, hbound⟩ :=
    debounceFires_append_last debounceDelay t (resetSearchQuery s) prior hprior
  refine ⟨rfl, ?_, ?_, ?_⟩
  · rw [hfires, finalActiveQuery_append_single]
    rfl
  · intro p hp hpt
    simp only [refineCalls] at hp
    rw [hfires, dedupFires_append_single] at hp
    rcases List.mem_append.mp hp with h1 | h2
    · exact absurd hpt (not_lt.mpr (hbound p (dedupFires_mem p pre initial h1)))
    · by_cases hfin : (((t + debounceDelay, resetSearchQuery s) : Nat × String).2 ==
          finalActiveQuery initial pre)
      · rw [if_pos hfin] at h2
        cases h2
      · rw [if_neg hfin] at h2
        rcases List.mem_singleton.mp h2 with rfl
        rfl
  · by_cases hfin : (((t + debounceDelay, resetSearchQuery s) : Nat × String).2 ==
        finalActiveQuery initial pre)
    · right
      intro p hp
      simp only [refineCalls] at hp
      rw [hfires, dedupFires_append_single, if_pos hfin, List.append_nil] at hp
      exact hbound p (dedupFires_mem p pre initial hp)
    · left
      simp only [refineCalls]
      rw [hfires, dedupFires_append_single, if_neg hfin, List.getLast?_concat]
      rfl

/-- Witness for the amended C5: initial query empty, "hello" typed at 100ms,
reset at 600ms; `refine "hello"` fires at 350ms and `refine ""` at 850ms. -/
theorem searchBox_reset_clears_and_empty_query_wins_witness :
    resetSearchQuery "hello" = "" ∧
    finalActiveQuery ""
      (debounceFires debounceDelay ([(100, "hello")] ++ [(600, resetSearchQuery "hello")])) =
      "" ∧
    (∀ p ∈ refineCalls debounceDelay ""
        ([(100, "hello")] ++ [(600, resetSearchQuery "hello")]),
      600 < p.1 → p.2 = "") ∧
    ((refineCalls debounceDelay ""
          ([(100, "hello")] ++ [(600, resetSearchQuery "hello")])).getLast? =
        some (600 + debounceDelay, "") ∨
      ∀ p ∈ refineCalls debounceDelay ""
          ([(100, "hello")] ++ [(600, resetSearchQuery "hello")]),
        p.1 ≤ 600) :=
  searchBox_reset_clears_and_empty_query_wins "hello" "" [(100, "hello")] 600 (by simp)

/-! ## Alternative detail page (src/app/(web)/alternatives/[slug]/page.tsx)

The page loads an alternative record (`findAlternative`, 404 on `null`) and
the list of its tools with categories (`findToolsWithCategories`), then
computes a category ranking, a top-5 tool slice, the metadata title and the
intro description.  We embed the payload shapes as plain records and each
derived computation as a function of them. -/

/-- A category record (`Category` of the Prisma schema: the fields used by
this page). -/
structure Category where
  id : Nat
  name : String
  slug : String
  label : Option String
deriving DecidableEq, Repr

/-- One element of a tool's `categories` relation: the join record
`{ category: Category }`. -/
structure CategoryJoin where
  category : Category
deriving DecidableEq, Repr

/-- A tool record as returned by `findToolsWithCategories` (the fields used
by this page). -/
structure ToolRecord where
  id : Nat
  name : String
  slug : String
  faviconUrl : Option String
  categories : List CategoryJoin
deriving DecidableEq, Repr

/-- An entry of the category-count accumulator: `{ count, category }`. -/
structure CategoryCount where
  count : Nat
  category : Category
deriving DecidableEq, Repr

/-- One step of the reducer body: for a category `c` of the current tool,
`if (!acc[c.name]) acc[c.name] = { count: 0, category: c }; acc[c.name].count += 1`.
A JavaScript object with string keys enumerates its properties in insertion
order, so we model the accumulator as a list of entries keyed by
`category.name`, appending on first encounter. -/
def bumpCategory (acc : List CategoryCount) (c : Category) : List CategoryCount :=
  if acc.any fun entry => entry.category.name == c.name then
    acc.map fun entry =>
      if entry.category.name == c.name then { entry with count := entry.count + 1 }
      else entry
  else acc ++ [{ count := 1, category := c }]

/-- `Object.values(tools.reduce(...))`: for each tool, for each
`{ category }` of its `categories`, bump that category's count; the values
come out in first-encounter order of the category names. -/
def categoryCounts (tools : List ToolRecord) : List CategoryCount :=
  tools.foldl (fun acc tool => tool.categories.foldl
    (fun acc2 join => bumpCategory acc2 join.category) acc) []

/-- The comparator `(a, b) => b.count - a.count` as the total preorder it
sorts by: `a` may come before `b` iff `b.count ≤ a.count`. -/
def byCountDesc (a b : CategoryCount) : Bool := b.count ≤ a.count

/-- `categories = Object.values(tools.reduce(...)).sort((a, b) => b.count - a.count)`.
`Array.prototype.sort` is a stable sort, so we model it with the (stable)
`List.mergeSort` under the comparator's preorder. -/
def sortedCategories (tools : List ToolRecord) : List CategoryCount :=
  (categoryCounts tools).mergeSort byCountDesc

/-- `bestTools = tools.slice(0, 5).map(tool => <Link href=... key=tool.id>{tool.name}</Link>)`,
with each rendered link modelled by its `(href, text)` pair. -/
def bestTools (tools : List ToolRecord) : List (String × String) :=
  (tools.take 5).map fun tool => ("/" ++ tool.slug, tool.name)

/-- An alternative record as returned by `findAlternative` (the fields used
here); `countTools` is `alternative._count.tools`. -/
structure AlternativeRecord where
  name : String
  slug : String
  countTools : Nat
deriving DecidableEq, Repr

/-- The `IntroDescription` text:
`alternative._count.tools ? "A curated collection of the N best open source alternatives to X." : "No open source X alternatives found yet."`
(a number is truthy iff non-zero). -/
def introDescription (alternative : AlternativeRecord) : String :=
  if alternative.countTools ≠ 0 then
    "A curated collection of the " ++ toString alternative.countTools ++
      " best open source alternatives to " ++ alternative.name ++ "."
  else
    "No open source " ++ alternative.name ++ " alternatives found yet."

/-- Whether the tool-list `<Section>` is rendered: `!!tools.length && (...)`. -/
def showsToolSection (tools : List ToolRecord) : Bool := tools.length != 0

/-- The outcome of a page load: either the framework's not-found response
(`notFound()`) or a rendered page over the loaded record. -/
inductive PageResult (α : Type) where
  | notFoundResponse : PageResult α
  | page : α → PageResult α
deriving DecidableEq

/-- `getAlternative`: `const alternative = await findAlternative({ where: { slug } });
if (!alternative) { notFound() } return alternative`, as a function of the
data layer's result for the requested slug. -/
def getAlternative (found : Option AlternativeRecord) : PageResult AlternativeRecord :=
  match found with
  | none => PageResult.notFoundResponse
  | some alternative => PageResult.page alternative

/-- The metadata title of `getMetadata`:
``` `${count > 1 ? `${count} ` : ""}Best Open Source ${alternative.name} Alternatives in ${year}` ```. -/
def metadataTitle (count : Nat) (name : String) (year : Nat) : String :=
  (if count > 1 then toString count ++ " " else "") ++
    "Best Open Source " ++ name ++ " Alternatives in " ++ toString year

/-- The count-free part of the metadata title, for comparison: what the title
is when no number is prefixed. -/
def baseMetadataTitle (name : String) (year : Nat) : String :=
  "Best Open Source " ++ name ++ " Alternatives in " ++ toString year

/-- Claim C3: for every tool list, regardless of its length, the top-5 slice
rendered on the alternative detail page contains at most 5 entries. -/
theorem alternativePage_bestTools_length_le_five (tools : List ToolRecord) :
    (bestTools tools).length ≤ 5 := by
  simp only [bestTools, List.length_map, List.length_take]
  omega

/-- Claim C4: for every alternative with zero associated tools (its tool
count is 0 and the fetched tool list is empty), the detail page renders the
"none found" message and does not render the tool-list section. -/
theorem alternativePage_zero_tools_renders_none_found
    (alternative : AlternativeRecord) (tools : List ToolRecord)
    (hcount : alternative.countTools = 0) (htools : tools = []) :
    introDescription alternative =
      "No open source " ++ alternative.name ++ " alternatives found yet." ∧
    showsToolSection tools = false := by
  subst htools
  constructor
  · simp [introDescription, hcount]
  · rfl

/-- Witness for C4 at a concrete alternative with zero tools. -/
theorem alternativePage_zero_tools_renders_none_found_witness :
    introDescription { name := "Acme", slug := "acme", countTools := 0 } =
      "No open source " ++ "Acme" ++ " alternatives found yet." ∧
    showsToolSection [] = false :=
  alternativePage_zero_tools_renders_none_found
    { name := "Acme", slug := "acme", countTools := 0 } [] rfl rfl

/-- Claim C6: for every requested slug for which the data layer returns no
alternative record, `getAlternative` resolves to the framework's not-found
response instead of a rendered page. -/
theorem getAlternative_missing_record_not_found (found : Option AlternativeRecord)
    (h : found = none) :
    getAlternative found = PageResult.notFoundResponse := by
  subst h; rfl

/-- Witness for C6. -/
theorem getAlternative_missing_record_not_found_witness :
    getAlternative none = PageResult.notFoundResponse :=
  getAlternative_missing_record_not_found none rfl

/-- Claim C8: the generated metadata title is prefixed with the tool count
iff the count is strictly greater than 1; for counts 0 and 1 the title is the
count-free base title (which starts with the letter `B`, not a number). -/
theorem getMetadata_title_count_rule (count : Nat) (name : String) (year : Nat) :
    (count > 1 →
      metadataTitle count name year = toString count ++ " " ++ baseMetadataTitle name year) ∧
    (count ≤ 1 → metadataTitle count name year = baseMetadataTitle name year) := by
  constructor
  · intro h
    simp only [metadataTitle, baseMetadataTitle, if_pos h, String.append_assoc]
  · intro h
    have h2 : ¬ count > 1 := by omega
    simp only [metadataTitle, baseMetadataTitle, if_neg h2, String.append_assoc,
      String.empty_append]

/-- Witness for C8 at counts 2 and 1. -/
theorem getMetadata_title_count_rule_witness :
    (metadataTitle 2 "Acme" 2025 = toString 2 ++ " " ++ baseMetadataTitle "Acme" 2025) ∧
    (metadataTitle 1 "Acme" 2025 = baseMetadataTitle "Acme" 2025) :=
  ⟨(getMetadata_title_count_rule 2 "Acme" 2025).1 (by omega),
   (getMetadata_title_count_rule 1 "Acme" 2025).2 (by omega)⟩

/-! ## Tool badges (ToolBadges, src/unnamed/part_001)

`ToolBadges` renders a "new" badge when
`!!tool.firstCommitDate && differenceInDays(today, tool.firstCommitDate) <= 365`
and a "fresh" badge when
`!!tool.publishedAt && differenceInDays(today, tool.publishedAt) <= 30`.
Dates are modelled as whole-day integers; `date-fns`' `differenceInDays`
yields a signed number of days (negative when the date lies in the future),
which the day-granularity model `today - date` captures exactly. -/

/-- `differenceInDays(laterDay, earlierDay)` on whole-day dates. -/
def differenceInDays (laterDay earlierDay : Int) : Int := laterDay - earlierDay

/-- The date fields of a tool used by `ToolBadges`; `none` models `null`. -/
structure ToolDates where
  firstCommitDate : Option Int
  publishedAt : Option Int
deriving DecidableEq, Repr

/-- `isNew = !!tool.firstCommitDate && differenceInDays(today, tool.firstCommitDate) <= 365`
(a `Date` object is truthy, `null` is falsy). -/
def isNew (today : Int) (tool : ToolDates) : Bool :=
  match tool.firstCommitDate with
  | none => false
  | some d => differenceInDays today d ≤ 365

/-- `isFresh = !!tool.publishedAt && differenceInDays(today, tool.publishedAt) <= 30`. -/
def isFresh (today : Int) (tool : ToolDates) : Bool :=
  match tool.publishedAt with
  | none => false
  | some d => differenceInDays today d ≤ 30

/-- The claim's wording for the "new" badge: a non-null first-commit date at
most 365 days before today (so a date not after today). -/
def specNewBadge (today : Int) (tool : ToolDates) : Prop :=
  ∃ d, tool.firstCommitDate = some d ∧ 0 ≤ today - d ∧ today - d ≤ 365

/-- The claim's wording for the "fresh" badge: a non-null published date at
most 30 days before today. -/
def specFreshBadge (today : Int) (tool : ToolDates) : Prop :=
  ∃ d, tool.publishedAt = some d ∧ 0 ≤ today - d ∧ today - d ≤ 30

/-- Counterexample to claim C9: a tool whose first-commit and published dates
lie one day in the future (day 1, with today = day 0).  Both dates are
"after today", so the claim says neither badge is rendered; but
`differenceInDays` is negative there, hence `≤ 365` and `≤ 30`, and the code
renders both badges. -/
theorem toolBadges_future_date_counterexample :
    isNew 0 { firstCommitDate := some 1, publishedAt := some 1 } = true ∧
    ¬ specNewBadge 0 { firstCommitDate := some 1, publishedAt := some 1 } ∧
    isFresh 0 { firstCommitDate := some 1, publishedAt := some 1 } = true ∧
    ¬ specFreshBadge 0 { firstCommitDate := some 1, publishedAt := some 1 } := by
  refine ⟨rfl, ?_, rfl, ?_⟩
  · rintro ⟨d, hd, h0, _⟩
    rcases Option.some.injEq 1 d ▸ hd with rfl
    omega
  · rintro ⟨d, hd, h0, _⟩
    rcases Option.some.injEq 1 d ▸ hd with rfl
    omega

/-- Amended claim C9: the "new" badge is rendered iff the tool has a non-null
first-commit date whose signed day difference from today is at most 365 (at
most 365 days in the past, or any date not in the past beyond that bound —
future dates also qualify), and the "fresh" badge likewise with bound 30 on
the published date. -/
theorem toolBadges_new_fresh_iff (today : Int) (tool : ToolDates) :
    (isNew today tool = true ↔
      ∃ d, tool.firstCommitDate = some d ∧ differenceInDays today d ≤ 365) ∧
    (isFresh today tool = true ↔
      ∃ d, tool.publishedAt = some d ∧ differenceInDays today d ≤ 30) := by
  constructor
  · rcases tool with ⟨fc, pa⟩
    cases fc with
    | none => simp [isNew]
    | some d => simp [isNew]
  · rcases tool with ⟨fc, pa⟩
    cases pa with
    | none => simp [isFresh]
    | some d => simp [isFresh]

/-! ## Breadcrumbs (src/apps/web/src/components/web/ui/breadcrumbs.tsx)

`Breadcrumbs` prepends a Home entry (`href: "/"`, name: a `<Home/>` icon
node) to the given items, renders them in order, and emits a JSON-LD
`BreadcrumbList` whose `ListItem`s carry `position: index + 1`, an `@id` of
`config.site.url + href`, and `name` equal to the item's name when it is a
string and `config.site.name` otherwise.  A crumb name is an arbitrary
`ReactNode`; we model it as `Option String`, with `none` standing for any
non-string node (such as the Home icon). -/

/-- A breadcrumb item: `{ href, name }` with `name : string | ReactNode`. -/
structure Breadcrumb where
  href : String
  name : Option String
deriving DecidableEq, Repr

/-- A JSON-LD `ListItem` of the emitted `BreadcrumbList` graph. -/
structure BreadcrumbListItem where
  position : Nat
  itemId : String
  itemName : String
deriving DecidableEq, Repr

/-- `breadcrumbItems = [{ href: "/", name: <Home/> }, ...items]`. -/
def breadcrumbItems (items : List Breadcrumb) : List Breadcrumb :=
  { href := "/", name := none } :: items

/-- `breadcrumbItems.map(({ href, name }, index) => ({ position: index + 1,
item: { "@id": config.site.url + href, name: typeof name === "string" ? name : config.site.name } }))`. -/
def breadcrumbJsonLd (siteUrl siteName : String) (items : List Breadcrumb) :
    List BreadcrumbListItem :=
  (breadcrumbItems items).enum.map fun p =>
    { position := p.1 + 1
      itemId := siteUrl ++ p.2.href
      itemName := match p.2.name with
        | some s => s
        | none => siteName }

/-- Claim C10: the rendered breadcrumb list and its JSON-LD graph always
begin with a Home entry linking to `/` (whose name is the non-string Home
icon), the JSON-LD positions are exactly `1..n+1` in the rendered order, and
any item whose name is not a string is given the site name in the JSON-LD. -/
theorem breadcrumbs_home_positions_and_name_fallback
    (items : List Breadcrumb) (siteUrl siteName : String) :
    (breadcrumbItems items).head? = some { href := "/", name := none } ∧
    (breadcrumbJsonLd siteUrl siteName items).map (fun li => li.position) =
      (List.range (items.length + 1)).map (fun i => i + 1) ∧
    ∀ (i : Nat) (b : Breadcrumb) (li : BreadcrumbListItem),
      (breadcrumbItems items)[i]? = some b → b.name = none →
      (breadcrumbJsonLd siteUrl siteName items)[i]? = some li →
      li.itemName = siteName := by
  refine ⟨rfl, ?_, ?_⟩
  · unfold breadcrumbJsonLd
    rw [List.map_map]
    have hcomp :
        ((fun li : BreadcrumbListItem => li.position) ∘ fun p : Nat × Breadcrumb =>
          ({ position := p.1 + 1, itemId := siteUrl ++ p.2.href,
             itemName := match p.2.name with
               | some s => s
               | none => siteName } : BreadcrumbListItem)) =
        (fun i => i + 1) ∘ Prod.fst := rfl
    rw [hcomp, ← List.map_map, List.enum_map_fst]
    have hlen : (breadcrumbItems items).length = items.length + 1 := rfl
    rw [hlen]
  · intro i b li hb hname hli
    have hilt : i < (breadcrumbItems items).length := by
      by_contra hge
      rw [List.getElem?_eq_none (Nat.le_of_not_lt hge)] at hb
      exact Option.noConfusion hb
    have hilt2 : i < (breadcrumbJsonLd siteUrl siteName items).length := by
      simpa [breadcrumbJsonLd] using hilt
    rw [List.getElem?_eq_getElem hilt] at hb
    rw [List.getElem?_eq_getElem hilt2] at hli
    have hb2 : (breadcrumbItems items)[i] = b := Option.some.inj hb
    have hli2 : (breadcrumbJsonLd siteUrl siteName items)[i] = li := Option.some.inj hli
    have hilt3 : i < (breadcrumbItems items).enum.length := by simpa using hilt
    simp only [breadcrumbJsonLd, List.getElem_map, List.getElem_enum] at hli2
    rw [← hli2]
    simp only [hb2, hname]

/-- Witness for C10: a concrete breadcrumb trail whose second item carries a
non-string name; its JSON-LD entry gets the site name. -/
theorem breadcrumbs_home_positions_and_name_fallback_witness :
    ({ position := 3, itemId := "https://openalternative.co" ++ "/self-hosted",
       itemName := "OpenAlternative" } : BreadcrumbListItem).itemName =
      "OpenAlternative" :=
  (breadcrumbs_home_positions_and_name_fallback
      [{ href := "/alternatives", name := some "Alternatives" },
       { href := "/self-hosted", name := none }]
      "https://openalternative.co" "OpenAlternative").2.2 2
    { href := "/self-hosted", name := none }
    { position := 3, itemId := "https://openalternative.co" ++ "/self-hosted",
      itemName := "OpenAlternative" }
    rfl rfl rfl

/-! ## Claim C2: the category ranking

Supporting development: the accumulator's key order is the first-encounter
order of the category names, each entry's count is the number of times its
category occurs across the tool list, and the stable sort orders the entries
by descending count with ties kept in accumulator (= first-encounter) order. -/

/-- Bumping a category leaves the key order unchanged when the name is
already present and appends the name otherwise. -/
theorem bumpCategory_map_name (acc : List CategoryCount) (c : Category) :
    (bumpCategory acc c).map (fun e => e.category.name) =
      if c.name ∈ acc.map (fun e => e.category.name) then
        acc.map (fun e => e.category.name)
      else acc.map (fun e => e.category.name) ++ [c.name] := by
  by_cases h : acc.any fun e => e.category.name == c.name
  · have hmem : c.name ∈ acc.map (fun e => e.category.name) := by
      rcases List.any_eq_true.mp h with ⟨e, he, heq⟩
      exact List.mem_map.mpr ⟨e, he, by simpa using heq⟩
    rw [bumpCategory, if_pos h, if_pos hmem, List.map_map]
    refine List.map_congr_left ?_
    intro a _
    by_cases ha : a.category.name = c.name <;> simp [ha]
  · have hmem : c.name ∉ acc.map (fun e => e.category.name) := by
      intro hmem
      rcases List.mem_map.mp hmem with ⟨e, he, hname⟩
      exact h (List.any_eq_true.mpr ⟨e, he, by simp [hname]⟩)
    rw [bumpCategory, if_neg h, if_neg hmem, List.map_append]
    rfl

/-- Folding a category stream into the accumulator threads the key order
through the first-encounter fold on names. -/
theorem foldl_bump_map_name (cats : List Category) :
    ∀ acc : List CategoryCount,
      (cats.foldl bumpCategory acc).map (fun e => e.category.name) =
      (cats.map Category.name).foldl
        (fun seen n => if n ∈ seen then seen else seen ++ [n])
        (acc.map fun e => e.category.name) := by
  induction cats with
  | nil => intro acc; rfl
  | cons c cats ih =>
    intro acc
    rw [List.foldl_cons, List.map_cons, List.foldl_cons, ih (bumpCategory acc c),
      bumpCategory_map_name]

/-- Formalisation of the claim's wording: the category names in the order
their names are first encountered while iterating the tool list. -/
def specEncounterNames (tools : List ToolRecord) : List String :=
  (tools.flatMap fun tool => tool.categories.map fun join => join.category.name).foldl
    (fun seen n => if n ∈ seen then seen else seen ++ [n]) []

/-- The two nested folds of `categoryCounts` flatten to a single fold over
the stream of category occurrences. -/
theorem foldl_tools_eq_stream (tools : List ToolRecord) :
    ∀ acc : List CategoryCount,
      tools.foldl (fun acc2 tool => tool.categories.foldl
        (fun acc3 join => bumpCategory acc3 join.category) acc2) acc =
      (tools.flatMap fun tool => tool.categories.map fun join => join.category).foldl
        bumpCategory acc := by
  induction tools with
  | nil => intro acc; rfl
  | cons t ts ih =>
    intro acc
    rw [List.foldl_cons, ih, List.flatMap_cons, List.foldl_append, List.foldl_map]

theorem categoryCounts_eq_stream (tools : List ToolRecord) :
    categoryCounts tools =
      (tools.flatMap fun tool => tool.categories.map fun join => join.category).foldl
        bumpCategory [] :=
  foldl_tools_eq_stream tools []

/-- The name stream of the category stream. -/
theorem stream_names (tools : List ToolRecord) :
    (tools.flatMap fun tool => tool.categories.map fun join => join.category).map
        Category.name =
      tools.flatMap fun tool => tool.categories.map fun join => join.category.name := by
  rw [List.map_flatMap]
  refine List.flatMap_congr ?_  -- pointwise: map name (map category joins) = map (name of category)
  intro t _
  rw [List.map_map]
  rfl

/-- The accumulator keys of `categoryCounts` are exactly the category names
in first-encounter order. -/
theorem categoryCounts_names (tools : List ToolRecord) :
    (categoryCounts tools).map (fun e => e.category.name) = specEncounterNames tools := by
  rw [categoryCounts_eq_stream, foldl_bump_map_name, stream_names]
  rfl

/-- Bumping preserves distinctness of the accumulator keys. -/
theorem bumpCategory_names_nodup (acc : List CategoryCount) (c : Category)
    (h : (acc.map fun e => e.category.name).Nodup) :
    ((bumpCategory acc c).map fun e => e.category.name).Nodup := by
  rw [bumpCategory_map_name]
  by_cases hmem : c.name ∈ acc.map fun e => e.category.name
  · rwa [if_pos hmem]
  · rw [if_neg hmem]
    refine List.nodup_append.mpr ⟨h, List.nodup_singleton _, ?_⟩
    intro x hx hx2
    rcases List.mem_singleton.mp hx2 with rfl
    exact hmem hx

theorem foldl_bump_names_nodup (cats : List Category) :
    ∀ acc : List CategoryCount, (acc.map fun e => e.category.name).Nodup →
      ((cats.foldl bumpCategory acc).map fun e => e.category.name).Nodup := by
  induction cats with
  | nil => intro acc h; exact h
  | cons c cats ih => intro acc h; exact ih _ (bumpCategory_names_nodup acc c h)

/-- The accumulator of `categoryCounts` has pairwise-distinct keys. -/
theorem categoryCounts_names_nodup (tools : List ToolRecord) :
    ((categoryCounts tools).map fun e => e.category.name).Nodup := by
  rw [categoryCounts_eq_stream]
  exact foldl_bump_names_nodup _ [] (by simp)

/-- The count stored in the accumulator under a given category name. -/
def lookupCount (acc : List CategoryCount) (n : String) : Nat :=
  match acc.find? fun e => e.category.name == n with
  | some e => e.count
  | none => 0

/-- `find?` commutes with a map that does not change the tested predicate. -/
theorem find?_map_invariant {α : Type} (p : α → Bool) (f : α → α)
    (hp : ∀ a, p (f a) = p a) :
    ∀ l : List α, (l.map f).find? p = (l.find? p).map f := by
  intro l
  induction l with
  | nil => rfl
  | cons a l ih =>
    rw [List.map_cons]
    cases hpa : p a with
    | true =>
      rw [List.find?_cons_of_pos _ ((hp a).trans hpa), List.find?_cons_of_pos _ hpa]
      rfl
    | false =>
      rw [List.find?_cons_of_neg _ (by simp [hp a, hpa]),
        List.find?_cons_of_neg _ (by simp [hpa]), ih]

/-- One bump changes the looked-up count of exactly the bumped name, by one. -/
theorem bumpCategory_lookupCount (acc : List CategoryCount) (c : Category) (n : String) :
    lookupCount (bumpCategory acc c) n =
      lookupCount acc n + (if c.name = n then 1 else 0) := by
  by_cases h : acc.any fun e => e.category.name == c.name
  · rw [bumpCategory, if_pos h]
    unfold lookupCount
    rw [find?_map_invariant (fun e => e.category.name == n)
      (fun entry => if entry.category.name == c.name then
        { entry with count := entry.count + 1 } else entry)
      (by intro a; by_cases ha : a.category.name = c.name <;> simp [ha]) acc]
    cases hfind : acc.find? fun e => e.category.name == n with
    | none =>
      have hcn : c.name ≠ n := by
        intro hcn
        rcases List.any_eq_true.mp h with ⟨e, he, heq⟩
        have := List.find?_eq_none.mp hfind e he
        simp only [beq_iff_eq] at heq this
        exact this (heq.trans hcn)
      simp [hcn]
    | some e0 =>
      have he0 : e0.category.name = n := by
        have := List.find?_some hfind
        simpa using this
      by_cases hcn : c.name = n
      · simp [Option.map, he0, hcn]
      · have : ¬ (e0.category.name == c.name) = true := by
          simp [he0]
          intro heq
          exact hcn heq.symm
        simp only [Option.map, hfind]
        simp [this, hcn]
  · have h2 : (acc.any fun e => e.category.name == c.name) = false := by
      simpa using h
    rw [bumpCategory, if_neg h]
    unfold lookupCount
    rw [List.find?_append]
    cases hfind : acc.find? fun e => e.category.name == n with
    | some e0 =>
      have he0mem : e0 ∈ acc := List.mem_of_find?_eq_some hfind
      have he0 : e0.category.name = n := by
        have := List.find?_some hfind
        simpa using this
      have hcn : c.name ≠ n := by
        intro hcn
        have hno := List.any_eq_false.mp h2 e0 he0mem
        simp only [beq_iff_eq] at hno
        exact hno (he0.trans hcn.symm)
      simp [Option.or, hcn]
    | none =>
      by_cases hcn : c.name = n
      · rw [List.find?_cons_of_pos _ (by simp [hcn])]
        simp [Option.or, hcn]
      · rw [List.find?_cons_of_neg _ (by simp [hcn])]
        simp [Option.or, hcn]

/-- Folding a category stream adds, for each name, the number of occurrences
of that name in the stream. -/
theorem foldl_bump_lookupCount (cats : List Category) :
    ∀ (acc : List CategoryCount) (n : String),
      lookupCount (cats.foldl bumpCategory acc) n =
        lookupCount acc n + (cats.map Category.name).count n := by
  induction cats with
  | nil => intro acc n; simp
  | cons c cats ih =>
    intro acc n
    rw [List.foldl_cons, ih, bumpCategory_lookupCount, List.map_cons, List.count_cons]
    by_cases hcn : c.name = n <;> simp [hcn] <;> omega

/-- With distinct keys, looking up an entry's own name finds that entry. -/
theorem find?_name_self (l : List CategoryCount)
    (hnd : (l.map fun e => e.category.name).Nodup) (e : CategoryCount) (he : e ∈ l) :
    (l.find? fun x => x.category.name == e.category.name) = some e := by
  induction l with
  | nil => cases he
  | cons a l ih =>
    have hnd2 : (a.category.name :: l.map fun x => x.category.name).Nodup := by
      simpa using hnd
    rcases List.mem_cons.mp he with rfl | he2
    · exact List.find?_cons_of_pos _ (by simp)
    · have hane : ¬ (a.category.name == e.category.name) = true := by
        simp only [beq_iff_eq]
        intro heq
        exact (List.nodup_cons.mp hnd2).1
          (heq ▸ List.mem_map.mpr ⟨e, he2, rfl⟩)
      rw [@List.find?_cons_of_neg CategoryCount
        (fun x => x.category.name == e.category.name) a l hane]
      exact ih (List.nodup_cons.mp hnd2).2 he2

/-- Each entry of `categoryCounts` counts the occurrences of its category
name in the stream of category names across the tool list. -/
theorem categoryCounts_count (tools : List ToolRecord) (e : CategoryCount)
    (he : e ∈ categoryCounts tools) :
    e.count = (tools.flatMap fun tool =>
      tool.categories.map fun join => join.category.name).count e.category.name := by
  have h1 : e.count = lookupCount (categoryCounts tools) e.category.name := by
    unfold lookupCount
    rw [find?_name_self (categoryCounts tools) (categoryCounts_names_nodup tools) e he]
  rw [h1, categoryCounts_eq_stream, foldl_bump_lookupCount, stream_names]
  simp [lookupCount]

/-- In a duplicate-free list of names, the multiplicity of a name is one if
present and zero otherwise. -/
theorem count_eq_ite_of_nodup (l : List String) (hnd : l.Nodup) (n : String) :
    l.count n = if n ∈ l then 1 else 0 := by
  induction l with
  | nil => simp
  | cons a l ih =>
    rw [List.count_cons, ih (List.nodup_cons.mp hnd).2]
    by_cases han : a = n
    · subst han
      have : a ∉ l := (List.nodup_cons.mp hnd).1
      simp [this]
    · simp [han, Ne.symm han]

/-- When each tool lists its categories without duplicates, the occurrences
of a name in the flattened stream count the tools carrying that category. -/
theorem flatMap_names_count_eq_countP (tools : List ToolRecord) (n : String)
    (hnd : ∀ t ∈ tools, (t.categories.map fun join => join.category.name).Nodup) :
    (tools.flatMap fun tool => tool.categories.map fun join => join.category.name).count n =
      tools.countP fun t =>
        decide (n ∈ t.categories.map fun join => join.category.name) := by
  induction tools with
  | nil => simp
  | cons t ts ih =>
    rw [List.flatMap_cons, List.count_append, List.countP_cons,
      ih fun x hx => hnd x (List.mem_cons.mpr (Or.inr hx)),
      count_eq_ite_of_nodup _ (hnd t (List.mem_cons.mpr (Or.inl rfl))) n]
    by_cases hmem : n ∈ t.categories.map fun join => join.category.name <;>
      simp [hmem] <;> omega

/-- Claim C2: for every non-empty tool list where each tool carries a list of
categories, the category ranking of the alternative detail page is sorted by
descending count (its counts are pairwise non-increasing), it is a
permutation of the accumulator entries, entries with equal counts keep their
accumulator order (stability of the sort), the accumulator order is exactly
the first-encounter order of the category names over the tool list, and —
when no tool lists a category name twice — each entry's count is the number
of tools carrying that category. -/
theorem alternativePage_categories_sorted_desc_ties_by_encounter
    (tools : List ToolRecord) (hne : tools ≠ []) :
    (sortedCategories tools).Pairwise (fun a b => b.count ≤ a.count) ∧
    (sortedCategories tools).Perm (categoryCounts tools) ∧
    (∀ a b : CategoryCount, [a, b].Sublist (categoryCounts tools) → a.count = b.count →
      [a, b].Sublist (sortedCategories tools)) ∧
    (categoryCounts tools).map (fun e => e.category.name) = specEncounterNames tools ∧
    ∀ e ∈ sortedCategories tools,
      (∀ t ∈ tools, (t.categories.map fun join => join.category.name).Nodup) →
      e.count = tools.countP fun t =>
        decide (e.category.name ∈ t.categories.map fun join => join.category.name) := by
  have htrans : ∀ a b c2 : CategoryCount, byCountDesc a b = true → byCountDesc b c2 = true →
      byCountDesc a c2 = true := by
    intro a b c2 hab hbc
    simp only [byCountDesc, decide_eq_true_eq] at hab hbc ⊢
    omega
  have htotal : ∀ a b : CategoryCount, (byCountDesc a b || byCountDesc b a) = true := by
    intro a b
    simp only [byCountDesc, Bool.or_eq_true, decide_eq_true_eq]
    omega
  refine ⟨?_, ?_, ?_, categoryCounts_names tools, ?_⟩
  · refine List.Pairwise.imp ?_ (List.sorted_mergeSort htrans htotal (categoryCounts tools))
    intro a b h
    simpa [byCountDesc] using h
  · exact List.mergeSort_perm (categoryCounts tools) byCountDesc
  · intro a b hsub heq
    show [a, b].Sublist ((categoryCounts tools).mergeSort byCountDesc)
    refine List.pair_sublist_mergeSort htrans htotal ?_ hsub
    simp [byCountDesc, heq]
  · intro e he hnd
    have he2 : e ∈ categoryCounts tools :=
      (List.mergeSort_perm (categoryCounts tools) byCountDesc).mem_iff.mp he
    rw [categoryCounts_count tools e he2, flatMap_names_count_eq_countP tools _ hnd]

/-- Witness for C2: three tools over categories `analytics`, `backup`, `crm`
with counts 1, 3, 1; the two count-1 entries keep their encounter order
(`analytics` before `crm`) in the sorted ranking. -/
theorem alternativePage_categories_sorted_desc_ties_by_encounter_witness :
    [{ count := 1, category := { id := 1, name := "analytics", slug := "analytics", label := none } },
     { count := 1, category := { id := 3, name := "crm", slug := "crm", label := none } }].Sublist
      (sortedCategories
        [{ id := 1, name := "T1", slug := "t1", faviconUrl := none,
           categories := [{ category := { id := 1, name := "analytics", slug := "analytics", label := none } },
                          { category := { id := 2, name := "backup", slug := "backup", label := none } }] },
         { id := 2, name := "T2", slug := "t2", faviconUrl := none,
           categories := [{ category := { id := 2, name := "backup", slug := "backup", label := none } },
                          { category := { id := 3, name := "crm", slug := "crm", label := none } }] },
         { id := 3, name := "T3", slug := "t3", faviconUrl := none,
           categories := [{ category := { id := 2, name := "backup", slug := "backup", label := none } }] }]) :=
  (alternativePage_categories_sorted_desc_ties_by_encounter
      [{ id := 1, name := "T1", slug := "t1", faviconUrl := none,
         categories := [{ category := { id := 1, name := "analytics", slug := "analytics", label := none } },
                        { category := { id := 2, name := "backup", slug := "backup", label := none } }] },
       { id := 2, name := "T2", slug := "t2", faviconUrl := none,
         categories := [{ category := { id := 2, name := "backup", slug := "backup", label := none } },
                        { category := { id := 3, name := "crm", slug := "crm", label := none } }] },
       { id := 3, name := "T3", slug := "t3", faviconUrl := none,
         categories := [{ category := { id := 2, name := "backup", slug := "backup", label := none } }] }]
      (by simp)).2.2.1
    { count := 1, category := { id := 1, name := "analytics", slug := "analytics", label := none } }
    { count := 1, category := { id := 3, name := "crm", slug := "crm", label := none } }
    (by decide) rfl
